import Mathlib

/-!
Verification of the tab-filtering core of `src/popup/popup-app.js` (the bossy
browser-extension popup).  The definitions below transliterate the JavaScript
of the `App` component into Lean: `fuzzySearch`, `filterTabs` (with the
`filteredWindows` it computes), `reduceWindows`, and `handleTabRemoved`.
JavaScript string and array primitives that the code calls
(`String.prototype.split(" ")`, `String.prototype.toLowerCase`,
`String.prototype.includes`, `Array.prototype.findIndex`,
`Array.prototype.splice(i, 1)`) are modelled by the `js`-prefixed and list
helpers, each with the exact ECMAScript semantics the code relies on,
including `findIndex` returning -1 on a miss and `splice` interpreting a
negative start index as counting from the end.
-/

/-- Tab record, mirroring the fields of the browser `Tab` objects that
popup-app.js reads: `id`, `windowId`, `title`, `url`, `discarded`. -/
structure Tab where
  id : Int
  windowId : Int
  title : String
  url : String
  discarded : Bool
deriving DecidableEq, Repr

/-- Does `pat` occur as the initial run of `l`?  Helper for the model of
JavaScript `String.prototype.includes`. -/
def listStartsWith : List Char → List Char → Bool
  | [], _ => true
  | _ :: _, [] => false
  | p :: ps, c :: cs => p == c && listStartsWith ps cs

/-- Does `pat` occur as a contiguous run anywhere in `l`? -/
def listHasSub (pat : List Char) : List Char → Bool
  | [] => pat.isEmpty
  | c :: cs => listStartsWith pat (c :: cs) || listHasSub pat cs

/-- Model of JavaScript `s.includes(pat)`: `pat` occurs as a contiguous
substring of `s` (the empty pattern always occurs). -/
def strIncludes (s pat : String) : Bool := listHasSub pat.data s.data

/-- Accumulator-passing worker for the model of `s.split(" ")`. -/
def jsSplitAux : List Char → List Char → List String
  | [], acc => [String.mk acc.reverse]
  | c :: cs, acc =>
      if c == ' ' then String.mk acc.reverse :: jsSplitAux cs []
      else jsSplitAux cs (c :: acc)

/-- Model of JavaScript `s.split(" ")`: split on every single space, keeping
empty pieces, so that the empty string yields `[""]` and consecutive spaces
yield empty terms. -/
def jsSplitOnSpace (s : String) : List String := jsSplitAux s.data []

/-- Model of JavaScript `s.toLowerCase()` (characterwise lowercasing). -/
def jsToLower (s : String) : String := String.mk (s.data.map Char.toLower)

/-- Transliteration of `App.fuzzySearch(tab, searchString)`: split the query
on single spaces, lowercase the tab's title and url (the query terms are NOT
lowercased by the source), and succeed unless some term occurs in neither. -/
def fuzzySearch (tab : Tab) (searchString : String) : Bool :=
  let searchSubString := jsSplitOnSpace searchString
  let tabTitle := jsToLower tab.title
  let tabUrl := jsToLower tab.url
  !(searchSubString.any fun subject =>
      !(strIncludes tabTitle subject) && !(strIncludes tabUrl subject))

/-- The `filteredTabs` computed by `App.filterTabs`:
`this.state.tabs.filter(tab => this.fuzzySearch(tab, filterString))`. -/
def filterTabs (tabs : List Tab) (filterString : String) : List Tab :=
  tabs.filter fun tab => fuzzySearch tab filterString

/-- Model of JavaScript `Set.prototype.add` on a `Set` represented as its
list of insertions: adding an element already present changes nothing,
otherwise it is appended. -/
def setAdd (s : List Tab) (t : Tab) : List Tab := if t ∈ s then s else s ++ [t]

/-- One step of the reducer in `App.reduceWindows`, on a `Map` represented as
its insertion-ordered association list (keys are unique): if the tab's
`windowId` is already a key, add the tab to that entry's set, otherwise
append a fresh entry holding the tab. -/
def insertTab : List (Int × List Tab) → Tab → List (Int × List Tab)
  | [], tab => [(tab.windowId, setAdd [] tab)]
  | (k, s) :: rest, tab =>
      if k = tab.windowId then (k, setAdd s tab) :: rest
      else (k, s) :: insertTab rest tab

/-- Transliteration of `App.reduceWindows(tabs)`: fold every tab into the
windowId-keyed map, starting from the empty map. -/
def reduceWindows (tabs : List Tab) : List (Int × List Tab) :=
  tabs.foldl insertTab []

/-- Transliteration of `App.filterTabs(filterString)` as a pure function of
the held tab collection: it computes `filteredTabs` by `fuzzySearch` and
`filteredWindows` as `reduceWindows(filteredTabs)`, and stores both. -/
def filterTabsState (tabs : List Tab) (filterString : String) :
    List Tab × List (Int × List Tab) :=
  let filteredTabs := filterTabs tabs filterString
  (filteredTabs, reduceWindows filteredTabs)

/-- Model of JavaScript `Array.prototype.findIndex`: the index of the first
element satisfying `p`, and `-1` if there is none. -/
def jsFindIdx (p : Tab → Bool) : List Tab → Int
  | [] => -1
  | t :: ts =>
      if p t then 0
      else
        let r := jsFindIdx p ts
        if r = -1 then -1 else r + 1

/-- Model of JavaScript `arr.splice(start, 1)` restricted to its effect on
the array: a negative `start` counts from the end (clamped at 0), a
too-large `start` deletes nothing, and otherwise the element at `start` is
removed. -/
def spliceRemoveOne (l : List Tab) (start : Int) : List Tab :=
  let s : Nat := if start < 0 then ((l.length : Int) + start).toNat
                 else min start.toNat l.length
  l.take s ++ l.drop (s + 1)

/-- Transliteration of `App.handleTabRemoved(tabId, {windowId,
isWindowClosing})` acting on the held tab collection: it copies the array,
finds the index of the first tab with `id > 2600` (note: not the reported
`tabId`), and splices one element out at that index. -/
def handleTabRemoved (tabs : List Tab) (tabId : Int) (windowId : Int)
    (isWindowClosing : Bool) : List Tab :=
  spliceRemoveOne tabs (jsFindIdx (fun i => decide (i.id > 2600)) tabs)

/-- Tab 1 of the spec's scenario collection. -/
def tab1 : Tab := ⟨1, 10, "GitHub", "https://github.com", false⟩

/-- Tab 2 of the spec's scenario collection. -/
def tab2 : Tab := ⟨2, 10, "Example", "https://example.com", false⟩

/-- Tab 3 of the spec's scenario collection. -/
def tab3 : Tab := ⟨3, 20, "News", "https://news.example", false⟩

/-- The spec's scenario collection T. -/
def scenarioT : List Tab := [tab1, tab2, tab3]

/-- Witness tab with a small id. -/
def wtabA : Tab := ⟨1, 10, "A", "a", false⟩

/-- Witness tab with a small id. -/
def wtabB : Tab := ⟨2, 10, "B", "b", false⟩

/-- Witness tab whose id exceeds the 2600 threshold of the removal
heuristic. -/
def wtabBig : Tab := ⟨3000, 20, "C", "c", false⟩

/-- C1: the claim says a removal event whose tab id is absent from the held
collection leaves the collection unchanged.  The code violates it: with the
one-tab collection `[tab1]` (id 1) and a removal event reporting tab id 2,
`findIndex(i => i.id > 2600)` misses, `splice(-1, 1)` deletes the LAST tab,
and the collection becomes empty. -/
theorem handleTabRemoved_absent_id_bug :
    (([tab1].all fun t => t.id != 2) = true) ∧
    handleTabRemoved [tab1] 2 10 false = [] := by
  constructor
  · decide
  · decide

/-- C2: the claim says `fuzzySearch` matches case-insensitively, so its
result cannot change when the query's letters change case.  The code
violates it: the query terms are never lowercased, so the query "GitHub"
fails against tab1 (title "GitHub") while the query "github" succeeds. -/
theorem fuzzySearch_case_bug :
    fuzzySearch tab1 "GitHub" = false ∧ fuzzySearch tab1 "github" = true := by
  constructor
  · decide
  · decide

/-- C3: the claim says removing tab id 2 from the scenario collection and
grouping leaves {10 : {tab1}, 20 : {tab3}}.  The code violates it: no id
exceeds 2600, so `splice(-1, 1)` deletes tab3 (the last element) instead of
tab2, and grouping the remainder yields {10 : {tab1, tab2}}. -/
theorem removal_scenario_bug :
    handleTabRemoved scenarioT 2 10 false = [tab1, tab2] ∧
    reduceWindows (handleTabRemoved scenarioT 2 10 false) =
      [(10, [tab1, tab2])] := by
  constructor
  · decide
  · decide

/-- C4: the result of `handleTabRemoved` is independent of the reported tab
id, window id, and isWindowClosing flag: any two removal events applied to
the same held collection produce identical collections. -/
theorem handleTabRemoved_ignores_event (tabs : List Tab) (tid1 wid1 : Int)
    (c1 : Bool) (tid2 wid2 : Int) (c2 : Bool) :
    handleTabRemoved tabs tid1 wid1 c1 = handleTabRemoved tabs tid2 wid2 c2 :=
  rfl

/-- C7: `filterTabs` returns a subsequence of its input: every returned tab
occurs in the input, none is duplicated or introduced, and the relative
order is preserved. -/
theorem filterTabs_sublist (T : List Tab) (q : String) :
    List.Sublist (filterTabs T q) T :=
  List.filter_sublist T

/-- C10: the `filteredWindows` component computed by `filterTabs` (the
code's applyGrouped) coincides with grouping the filtered tabs by window:
applyGrouped(T, q) = groupByWindow(apply(T, q)).  In the source this holds
by construction, since `filterTabs` stores
`reduceWindows(filteredTabs)`. -/
theorem filterTabsState_grouping (T : List Tab) (q : String) :
    (filterTabsState T q).2 = reduceWindows (filterTabs T q) :=
  rfl

/-- The empty character run occurs in every list. -/
theorem listHasSub_nil : ∀ l : List Char, listHasSub [] l = true
  | [] => rfl
  | _ :: _ => by simp [listHasSub, listStartsWith]

/-- The empty string is a substring of every string. -/
theorem strIncludes_empty_pat (s : String) : strIncludes s "" = true :=
  listHasSub_nil s.data

/-- A query all of whose single-space terms are empty matches every tab. -/
theorem fuzzySearch_all_empty (tab : Tab) (q : String)
    (h : ∀ s ∈ jsSplitOnSpace q, s = "") : fuzzySearch tab q = true := by
  have hany : ((jsSplitOnSpace q).any fun subject =>
      !(strIncludes (jsToLower tab.title) subject) &&
      !(strIncludes (jsToLower tab.url) subject)) = false := by
    rw [List.any_eq_false]
    intro s hs
    rw [h s hs]
    simp [strIncludes_empty_pat]
  simp [fuzzySearch, hany]

/-- findIndex misses exactly when no element satisfies the test. -/
theorem jsFindIdx_eq_neg_one (p : Tab → Bool) :
    ∀ l : List Tab, (∀ t ∈ l, p t = false) → jsFindIdx p l = -1
  | [], _ => rfl
  | t :: ts, h => by
    have ht : p t = false := h t (by simp)
    have hts := jsFindIdx_eq_neg_one p ts fun x hx => h x (by simp [hx])
    simp [jsFindIdx, ht, hts]

/-- findIndex on a list whose first satisfying element sits right after
the run `before` of non-satisfying elements returns `before.length`. -/
theorem jsFindIdx_append (p : Tab → Bool) :
    ∀ (before : List Tab) (t0 : Tab) (after : List Tab),
      (∀ t ∈ before, p t = false) → p t0 = true →
      jsFindIdx p (before ++ t0 :: after) = (before.length : Int)
  | [], t0, after, _, ht => by simp [jsFindIdx, ht]
  | b :: bs, t0, after, hb, ht => by
    have hbb : p b = false := hb b (by simp)
    have ih := jsFindIdx_append p bs t0 after (fun x hx => hb x (by simp [hx])) ht
    have hne : (bs.length : Int) ≠ -1 := by omega
    simp [jsFindIdx, hbb, ih, hne]

/-- splice(-1, 1) removes the last element (and leaves the empty array
empty). -/
theorem spliceRemoveOne_neg_one (l : List Tab) :
    spliceRemoveOne l (-1) = l.dropLast := by
  simp only [spliceRemoveOne]
  rw [if_pos (by norm_num : (-1 : Int) < 0)]
  have hs : ((l.length : Int) + -1).toNat = l.length - 1 := by omega
  rw [hs]
  cases l with
  | nil => rfl
  | cons a as =>
    have hlen : (a :: as).length - 1 + 1 = (a :: as).length := by simp
    rw [hlen, List.drop_length, List.append_nil, List.dropLast_eq_take]

/-- splice at a valid nonnegative index removes exactly that element. -/
theorem spliceRemoveOne_natCast (l : List Tab) (n : Nat) (h : n ≤ l.length) :
    spliceRemoveOne l (n : Int) = l.take n ++ l.drop (n + 1) := by
  simp only [spliceRemoveOne]
  rw [if_neg (by omega : ¬((n : Int) < 0))]
  have hs : min (n : Int).toNat l.length = n := by omega
  rw [hs]

/-- C5: on a non-empty collection all of whose ids are at most 2600,
`handleTabRemoved` removes exactly the last element, regardless of the
reported tab id; on a collection split as `before ++ t0 :: after` where
`t0` is the first tab with id above 2600, it removes exactly `t0`. -/
theorem handleTabRemoved_heuristic (tabs : List Tab) (tid wid : Int)
    (cl : Bool) :
    (tabs ≠ [] → (∀ t ∈ tabs, t.id ≤ 2600) →
      handleTabRemoved tabs tid wid cl = tabs.dropLast) ∧
    (∀ before t0 after, tabs = before ++ t0 :: after →
      (∀ t ∈ before, t.id ≤ 2600) → t0.id > 2600 →
      handleTabRemoved tabs tid wid cl = before ++ after) := by
  constructor
  · intro _ hall
    have hfn : ∀ t ∈ tabs, (fun i => decide (i.id > 2600)) t = false := by
      intro t ht
      have := hall t ht
      simp only [decide_eq_false_iff_not]
      omega
    unfold handleTabRemoved
    rw [jsFindIdx_eq_neg_one _ tabs hfn]
    exact spliceRemoveOne_neg_one tabs
  · intro before t0 after hsplit hb hbig
    subst hsplit
    have hfb : ∀ t ∈ before, (fun i => decide (i.id > 2600)) t = false := by
      intro t ht
      have := hb t ht
      simp only [decide_eq_false_iff_not]
      omega
    unfold handleTabRemoved
    rw [jsFindIdx_append _ before t0 after hfb (decide_eq_true hbig)]
    rw [spliceRemoveOne_natCast _ _ (by simp)]
    rw [List.take_left, ← List.drop_drop, List.drop_left]
    rfl

/-- C5 witness: on [wtabA, wtabB] (ids 1 and 2) the handler drops the last
tab; on [wtabA, wtabBig, wtabB] it removes wtabBig (id 3000), the first
tab with id above 2600. -/
theorem handleTabRemoved_heuristic_witness :
    handleTabRemoved [wtabA, wtabB] 5 0 false = [wtabA, wtabB].dropLast ∧
    handleTabRemoved [wtabA, wtabBig, wtabB] 5 0 false = [wtabA] ++ [wtabB] := by
  constructor
  · exact (handleTabRemoved_heuristic [wtabA, wtabB] 5 0 false).1
      (by decide) (by decide)
  · exact (handleTabRemoved_heuristic [wtabA, wtabBig, wtabB] 5 0 false).2
      [wtabA] wtabBig [wtabB] rfl (by decide) (by decide)

/-- C6: filtering with the empty query returns the collection unchanged,
and so does any query all of whose single-space terms are empty (for
example a run of consecutive spaces). -/
theorem filterTabs_empty_query (T : List Tab) (q : String)
    (h : ∀ s ∈ jsSplitOnSpace q, s = "") :
    filterTabs T "" = T ∧ filterTabs T q = T := by
  constructor
  · exact List.filter_eq_self.mpr fun t _ =>
      fuzzySearch_all_empty t "" (by decide)
  · exact List.filter_eq_self.mpr fun t _ => fuzzySearch_all_empty t q h

/-- C6 witness: the theorem applied to the scenario collection and the
two-space query. -/
theorem filterTabs_empty_query_witness :
    filterTabs scenarioT "" = scenarioT ∧ filterTabs scenarioT "  " = scenarioT :=
  filterTabs_empty_query scenarioT "  " (by decide)

/-- Membership in a JS-style set after an add. -/
theorem mem_setAdd (s : List Tab) (x t : Tab) :
    t ∈ setAdd s x ↔ t ∈ s ∨ t = x := by
  unfold setAdd
  split
  · constructor
    · exact Or.inl
    · rintro (h | rfl) <;> assumption
  · simp

/-- A JS-style set add never yields the empty set. -/
theorem setAdd_ne_nil (s : List Tab) (x : Tab) : setAdd s x ≠ [] := by
  unfold setAdd
  split
  · intro hs
    subst hs
    simp_all
  · simp

/-- Adding a tab to the window map adds exactly that tab to the union of
the buckets. -/
theorem mem_bucket_insertTab :
    ∀ (acc : List (Int × List Tab)) (tab t : Tab),
      (∃ p ∈ insertTab acc tab, t ∈ p.2) ↔ (∃ p ∈ acc, t ∈ p.2) ∨ t = tab
  | [], tab, t => by
    simp [insertTab, mem_setAdd]
  | (k, s0) :: rest, tab, t => by
    by_cases hk : k = tab.windowId
    · simp only [insertTab, if_pos hk]
      constructor
      · rintro ⟨p, hp, ht⟩
        rcases List.mem_cons.mp hp with rfl | hp2
        · rcases (mem_setAdd _ _ _).mp ht with h | h
          · exact Or.inl ⟨(k, s0), List.mem_cons_self _ _, h⟩
          · exact Or.inr h
        · exact Or.inl ⟨p, List.mem_cons_of_mem _ hp2, ht⟩
      · rintro (⟨p, hp, ht⟩ | rfl)
        · rcases List.mem_cons.mp hp with rfl | hp2
          · exact ⟨(k, setAdd s0 tab), List.mem_cons_self _ _,
              (mem_setAdd _ _ _).mpr (Or.inl ht)⟩
          · exact ⟨p, List.mem_cons_of_mem _ hp2, ht⟩
        · exact ⟨(k, setAdd s0 t), List.mem_cons_self _ _,
            (mem_setAdd _ _ _).mpr (Or.inr rfl)⟩
    · simp only [insertTab, if_neg hk]
      have ih := mem_bucket_insertTab rest tab t
      constructor
      · rintro ⟨p, hp, ht⟩
        rcases List.mem_cons.mp hp with rfl | hp2
        · exact Or.inl ⟨(k, s0), List.mem_cons_self _ _, ht⟩
        · rcases ih.mp ⟨p, hp2, ht⟩ with ⟨q, hq, htq⟩ | h
          · exact Or.inl ⟨q, List.mem_cons_of_mem _ hq, htq⟩
          · exact Or.inr h
      · rintro (⟨p, hp, ht⟩ | rfl)
        · rcases List.mem_cons.mp hp with rfl | hp2
          · exact ⟨(k, s0), List.mem_cons_self _ _, ht⟩
          · rcases ih.mpr (Or.inl ⟨p, hp2, ht⟩) with ⟨q, hq, htq⟩
            exact ⟨q, List.mem_cons_of_mem _ hq, htq⟩
        · rcases ih.mpr (Or.inr rfl) with ⟨q, hq, htq⟩
          exact ⟨q, List.mem_cons_of_mem _ hq, htq⟩

/-- Buckets stay keyed by the windowId of their tabs across an insert. -/
theorem insertTab_keyed :
    ∀ (acc : List (Int × List Tab)) (tab : Tab),
      (∀ p ∈ acc, ∀ t ∈ p.2, t.windowId = p.1) →
      ∀ p ∈ insertTab acc tab, ∀ t ∈ p.2, t.windowId = p.1
  | [], tab, _ => by
    rintro p hp t ht
    rw [insertTab, List.mem_singleton] at hp
    subst hp
    have ht2 : t ∈ setAdd [] tab := ht
    rcases (mem_setAdd _ _ _).mp ht2 with h | rfl
    · cases h
    · rfl
  | (k, s0) :: rest, tab, hacc => by
    by_cases hk : k = tab.windowId
    · simp only [insertTab, if_pos hk]
      rintro p hp t ht
      rcases List.mem_cons.mp hp with rfl | hp2
      · rcases (mem_setAdd _ _ _).mp ht with h | rfl
        · exact hacc (k, s0) (List.mem_cons_self _ _) t h
        · exact hk.symm
      · exact hacc p (List.mem_cons_of_mem _ hp2) t ht
    · simp only [insertTab, if_neg hk]
      rintro p hp t ht
      rcases List.mem_cons.mp hp with rfl | hp2
      · exact hacc (k, s0) (List.mem_cons_self _ _) t ht
      · exact insertTab_keyed rest tab
          (fun q hq => hacc q (List.mem_cons_of_mem _ hq)) p hp2 t ht

/-- Buckets stay non-empty across an insert. -/
theorem insertTab_ne_nil :
    ∀ (acc : List (Int × List Tab)) (tab : Tab),
      (∀ p ∈ acc, p.2 ≠ []) → ∀ p ∈ insertTab acc tab, p.2 ≠ []
  | [], tab, _ => by
    rintro p hp
    rw [insertTab, List.mem_singleton] at hp
    subst hp
    show setAdd [] tab ≠ []
    exact setAdd_ne_nil _ _
  | (k, s0) :: rest, tab, hacc => by
    by_cases hk : k = tab.windowId
    · simp only [insertTab, if_pos hk]
      rintro p hp
      rcases List.mem_cons.mp hp with rfl | hp2
      · exact setAdd_ne_nil _ _
      · exact hacc p (List.mem_cons_of_mem _ hp2)
    · simp only [insertTab, if_neg hk]
      rintro p hp
      rcases List.mem_cons.mp hp with rfl | hp2
      · exact hacc (k, s0) (List.mem_cons_self _ _)
      · exact insertTab_ne_nil rest tab
          (fun q hq => hacc q (List.mem_cons_of_mem _ hq)) p hp2

/-- An entry of an insert is an old entry, possibly with a grown bucket
(hence an old key), or is keyed by the inserted tab's windowId. -/
theorem mem_insertTab_key :
    ∀ (acc : List (Int × List Tab)) (tab : Tab) (q : Int × List Tab),
      q ∈ insertTab acc tab → q ∈ acc ∨ q.1 = tab.windowId
  | [], _, q => by
    simp only [insertTab]
    intro h
    rw [List.mem_singleton] at h
    subst h
    exact Or.inr rfl
  | (k, s0) :: rest, tab, q => by
    by_cases hk : k = tab.windowId
    · simp only [insertTab, if_pos hk]
      intro h
      rcases List.mem_cons.mp h with rfl | h2
      · exact Or.inr hk
      · exact Or.inl (List.mem_cons_of_mem _ h2)
    · simp only [insertTab, if_neg hk]
      intro h
      rcases List.mem_cons.mp h with rfl | h2
      · exact Or.inl (List.mem_cons_self _ _)
      · rcases mem_insertTab_key rest tab q h2 with h3 | h3
        · exact Or.inl (List.mem_cons_of_mem _ h3)
        · exact Or.inr h3

/-- Inserting a tab preserves distinctness of the window keys. -/
theorem insertTab_pairwise (tab : Tab) :
    ∀ acc : List (Int × List Tab),
      acc.Pairwise (fun p q => p.1 ≠ q.1) →
      (insertTab acc tab).Pairwise (fun p q => p.1 ≠ q.1)
  | [], _ => by simp [insertTab]
  | (k, s0) :: rest, h => by
    rcases List.pairwise_cons.mp h with ⟨hk1, hrest⟩
    by_cases hk : k = tab.windowId
    · simp only [insertTab, if_pos hk]
      exact List.pairwise_cons.mpr ⟨hk1, hrest⟩
    · simp only [insertTab, if_neg hk]
      refine List.pairwise_cons.mpr ⟨?_, insertTab_pairwise tab rest hrest⟩
      intro q hq
      rcases mem_insertTab_key rest tab q hq with h2 | h2
      · exact hk1 q h2
      · rw [h2]
        exact hk

/-- Union of the buckets accumulated by the reduceWindows fold. -/
theorem mem_bucket_foldl :
    ∀ (l : List Tab) (acc : List (Int × List Tab)) (t : Tab),
      (∃ p ∈ l.foldl insertTab acc, t ∈ p.2) ↔ (∃ p ∈ acc, t ∈ p.2) ∨ t ∈ l
  | [], acc, t => by simp
  | x :: xs, acc, t => by
    rw [List.foldl_cons, mem_bucket_foldl xs (insertTab acc x) t,
      mem_bucket_insertTab acc x t]
    constructor
    · rintro ((h | rfl) | h)
      · exact Or.inl h
      · exact Or.inr (List.mem_cons_self _ _)
      · exact Or.inr (List.mem_cons_of_mem _ h)
    · rintro (h | h)
      · exact Or.inl (Or.inl h)
      · rcases List.mem_cons.mp h with rfl | h2
        · exact Or.inl (Or.inr rfl)
        · exact Or.inr h2

/-- The reduceWindows fold keeps every bucket keyed by the windowId of its
tabs. -/
theorem foldl_keyed :
    ∀ (l : List Tab) (acc : List (Int × List Tab)),
      (∀ p ∈ acc, ∀ t ∈ p.2, t.windowId = p.1) →
      ∀ p ∈ l.foldl insertTab acc, ∀ t ∈ p.2, t.windowId = p.1
  | [], _, hacc => hacc
  | x :: xs, acc, hacc =>
      foldl_keyed xs (insertTab acc x) (insertTab_keyed acc x hacc)

/-- The reduceWindows fold keeps every bucket non-empty. -/
theorem foldl_ne_nil :
    ∀ (l : List Tab) (acc : List (Int × List Tab)),
      (∀ p ∈ acc, p.2 ≠ []) → ∀ p ∈ l.foldl insertTab acc, p.2 ≠ []
  | [], _, hacc => hacc
  | x :: xs, acc, hacc =>
      foldl_ne_nil xs (insertTab acc x) (insertTab_ne_nil acc x hacc)

/-- The reduceWindows fold keeps the window keys pairwise distinct. -/
theorem foldl_pairwise :
    ∀ (l : List Tab) (acc : List (Int × List Tab)),
      acc.Pairwise (fun p q => p.1 ≠ q.1) →
      (l.foldl insertTab acc).Pairwise (fun p q => p.1 ≠ q.1)
  | [], _, hacc => hacc
  | x :: xs, acc, hacc =>
      foldl_pairwise xs (insertTab acc x) (insertTab_pairwise x acc hacc)

/-- In a map with pairwise-distinct keys, entries with equal keys are
equal. -/
theorem eq_of_pairwise_keys :
    ∀ (m : List (Int × List Tab)),
      m.Pairwise (fun p q => p.1 ≠ q.1) →
      ∀ p ∈ m, ∀ q ∈ m, p.1 = q.1 → p = q
  | [], _ => by
    intro p hp
    cases hp
  | x :: rest, hm => by
    rcases List.pairwise_cons.mp hm with ⟨hx, hrest⟩
    intro p hp q hq hkey
    rcases List.mem_cons.mp hp with rfl | hp2
    · rcases List.mem_cons.mp hq with rfl | hq2
      · rfl
      · exact absurd hkey (hx q hq2)
    · rcases List.mem_cons.mp hq with rfl | hq2
      · exact absurd hkey.symm (hx p hp2)
      · exact eq_of_pairwise_keys rest hrest p hp2 q hq2 hkey

/-- C8: reduceWindows partitions the collection exactly: every tab of the
collection lies in exactly one bucket, namely the one keyed by its
windowId, and every bucket holds only tabs of the collection keyed by its
window id (so the union of the buckets is the collection). -/
theorem reduceWindows_partitions (T : List Tab) :
    (∀ t ∈ T, ∃! p : Int × List Tab,
      p ∈ reduceWindows T ∧ t ∈ p.2 ∧ p.1 = t.windowId) ∧
    (∀ p ∈ reduceWindows T, ∀ t ∈ p.2, t.windowId = p.1 ∧ t ∈ T) := by
  have hkeyed : ∀ p ∈ reduceWindows T, ∀ t ∈ p.2, t.windowId = p.1 :=
    foldl_keyed T [] (by intro p hp; cases hp)
  have hpw : (reduceWindows T).Pairwise (fun p q => p.1 ≠ q.1) :=
    foldl_pairwise T [] List.Pairwise.nil
  have hmem : ∀ t : Tab, (∃ p ∈ reduceWindows T, t ∈ p.2) ↔ t ∈ T := by
    intro t
    unfold reduceWindows
    rw [mem_bucket_foldl T [] t]
    constructor
    · rintro (⟨p, hp, _⟩ | h)
      · cases hp
      · exact h
    · exact Or.inr
  constructor
  · intro t ht
    rcases (hmem t).mpr ht with ⟨p, hp, htp⟩
    refine ⟨p, ⟨hp, htp, (hkeyed p hp t htp).symm⟩, ?_⟩
    rintro q ⟨hq, htq, hqkey⟩
    exact eq_of_pairwise_keys _ hpw q hq p hp
      (by rw [hqkey]; exact hkeyed p hp t htp)
  · intro p hp t htp
    exact ⟨hkeyed p hp t htp, (hmem t).mp ⟨p, hp, htp⟩⟩

/-- C8 witness: in the scenario collection, tab1 lies in exactly one
bucket of the grouping, and the bucket (20, [tab3]) holds only correctly
keyed tabs of the collection. -/
theorem reduceWindows_partitions_witness :
    (∃! p : Int × List Tab,
      p ∈ reduceWindows scenarioT ∧ tab1 ∈ p.2 ∧ p.1 = tab1.windowId) ∧
    (tab3.windowId = 20 ∧ tab3 ∈ scenarioT) := by
  constructor
  · exact (reduceWindows_partitions scenarioT).1 tab1 (by decide)
  · exact (reduceWindows_partitions scenarioT).2 ((20 : Int), [tab3])
      (by decide) tab3 (by decide)

/-- C9: the filtered grouping stored by filterTabs never contains an empty
bucket, and a window id appears in it iff some tab of the collection with
that windowId matches the query. -/
theorem filteredWindows_spec (T : List Tab) (q : String) :
    (∀ p ∈ (filterTabsState T q).2, p.2 ≠ []) ∧
    (∀ w : Int, (∃ p ∈ (filterTabsState T q).2, p.1 = w) ↔
      ∃ t ∈ T, fuzzySearch t q = true ∧ t.windowId = w) := by
  have hne : ∀ p ∈ reduceWindows (filterTabs T q), p.2 ≠ [] :=
    foldl_ne_nil _ [] (by intro p hp; cases hp)
  have hpart := reduceWindows_partitions (filterTabs T q)
  constructor
  · exact hne
  · intro w
    constructor
    · rintro ⟨p, hp, rfl⟩
      rcases List.exists_mem_of_ne_nil _ (hne p hp) with ⟨t, htp⟩
      rcases hpart.2 p hp t htp with ⟨hwid, htf⟩
      rcases List.mem_filter.mp htf with ⟨htT, hfz⟩
      exact ⟨t, htT, hfz, hwid⟩
    · rintro ⟨t, htT, hfz, hwid⟩
      have htf : t ∈ filterTabs T q := List.mem_filter.mpr ⟨htT, hfz⟩
      rcases (hpart.1 t htf) with ⟨p, ⟨hp, _, hkey⟩, _⟩
      exact ⟨p, hp, by rw [hkey, hwid]⟩

/-- C9 witness: filtering the scenario collection with "example", the
bucket (10, [tab2]) of the stored grouping is non-empty, and window 10 is
present in it because tab2 matches. -/
theorem filteredWindows_spec_witness :
    ((10 : Int), [tab2]).2 ≠ ([] : List Tab) ∧
    (∃ t ∈ scenarioT, fuzzySearch t "example" = true ∧ t.windowId = 10) := by
  constructor
  · exact (filteredWindows_spec scenarioT "example").1 ((10 : Int), [tab2])
      (by decide)
  · exact ((filteredWindows_spec scenarioT "example").2 10).mp
      ⟨((10 : Int), [tab2]), by decide, rfl⟩
